import Mathlib

/-!
Verification of the `initialize` Rust crate (src/lib.rs).

The crate exposes two generic constructors:

* `InitWithIndex::init_with` for `[T; SIZE]` (lib.rs lines 48-64): allocates a
  `MaybeUninit<[T; SIZE]>` (zeroed), then `for index in 0..SIZE` writes
  `f(index)` into slot `index` with `ptr::write`, finally `assume_init`.
* `InitWithDynamicIndex::init_with_size` for `Vec<T>` (lib.rs lines 66-74):
  `Vec::with_capacity(size)`, then `for index in 0..size { vec.push(f(index)) }`.

The embedding models the generator as `g : Nat → Except ε T`, where
`Except.error e` stands for the generator panicking (raising) with payload `e`.
Each run records, besides the result, the observable effect trace:

* `calls`   - the arguments passed to the generator, in call order;
* `leaked`  - elements that were fully constructed but whose destructor never
  runs when the run fails (for the array path, the elements already written
  into the `MaybeUninit` are discarded during unwinding without being dropped,
  because `MaybeUninit` never drops its contents);
* `dropped` - elements destroyed during ordinary teardown when the run fails
  (for the `Vec` path, unwinding runs `Vec`'s destructor, which drops every
  element it owns);
* for the `Vec` path, `reallocs` counts reallocations performed by `push`.

On success the elements are transferred to the caller inside the returned
container, so `leaked` and `dropped` are empty.
-/

namespace Initialize

/-- Effect-trace outcome of the fixed-size array constructor. -/
structure FixedOutcome (ε T : Type) where
  result : Except ε (List T)
  calls : List Nat
  leaked : List T
  dropped : List T
deriving Repr

/-- Loop body of `InitWithIndex::init_with` for `[T; SIZE]` (lib.rs 53-60):
iterate over the remaining indices, calling `g` and writing each produced
element into its slot (`written` holds the slots filled so far, in index
order).  If `g` panics, unwinding discards the `MaybeUninit` without running
destructors of the written elements, so they are recorded as `leaked`. -/
def fixedGo {ε T : Type} (g : Nat → Except ε T) :
    List Nat → List T → List Nat → FixedOutcome ε T
  | [], written, calls => ⟨Except.ok written, calls, [], []⟩
  | i :: rest, written, calls =>
    match g i with
    | Except.ok v => fixedGo g rest (written ++ [v]) (calls ++ [i])
    | Except.error e => ⟨Except.error e, calls ++ [i], written, []⟩

/-- `InitWithIndex::init_with` for `[T; SIZE]` (lib.rs 48-64): run the fill
loop over indices `0, 1, ..., SIZE-1`; on success `assume_init` yields the
fully-initialized array (modelled as the list of slot contents in index
order). -/
def init_with {ε T : Type} (SIZE : Nat) (g : Nat → Except ε T) : FixedOutcome ε T :=
  fixedGo g (List.range SIZE) [] []

/-- Model of Rust `Vec<T>`: capacity, element list, and a counter of the
reallocations that `push` has performed. -/
structure RVec (T : Type) where
  cap : Nat
  data : List T
  reallocs : Nat
deriving Repr

/-- `Vec::with_capacity(n)` (lib.rs 68): empty vector whose backing buffer
already holds room for `n` elements. -/
def RVec.with_capacity (T : Type) (n : Nat) : RVec T := ⟨n, [], 0⟩

/-- `Vec::push` (lib.rs 70): append one element; if the buffer is full the
push first reallocates to a larger capacity. -/
def RVec.push {T : Type} (v : RVec T) (x : T) : RVec T :=
  if v.data.length < v.cap then ⟨v.cap, v.data ++ [x], v.reallocs⟩
  else ⟨max (2 * v.cap) (v.data.length + 1), v.data ++ [x], v.reallocs + 1⟩

/-- Effect-trace outcome of the dynamic-size `Vec` constructor. -/
structure VecOutcome (ε T : Type) where
  result : Except ε (RVec T)
  calls : List Nat
  leaked : List T
  dropped : List T
  reallocs : Nat
deriving Repr

/-- Loop body of `init_with_size` for `Vec<T>` (lib.rs 69-71): iterate over
the remaining indices, pushing each generated element.  If `g` panics,
unwinding drops the vector, which destroys every element it owns, recorded as
`dropped`. -/
def vecGo {ε T : Type} (g : Nat → Except ε T) :
    List Nat → RVec T → List Nat → VecOutcome ε T
  | [], v, calls => ⟨Except.ok v, calls, [], [], v.reallocs⟩
  | i :: rest, v, calls =>
    match g i with
    | Except.ok x => vecGo g rest (v.push x) (calls ++ [i])
    | Except.error e => ⟨Except.error e, calls ++ [i], [], v.data, v.reallocs⟩

/-- `InitWithDynamicIndex::init_with_size` for `Vec<T>` (lib.rs 66-74). -/
def init_with_size {ε T : Type} (size : Nat) (g : Nat → Except ε T) : VecOutcome ε T :=
  vecGo g (List.range size) (RVec.with_capacity T size) []

/-- A total (never-panicking) generator built from a plain function. -/
def pureGen {ε T : Type} (f : Nat → T) : Nat → Except ε T := fun i => Except.ok (f i)

/-- Push a whole list of elements, one `push` at a time. -/
def RVec.pushMany {T : Type} (v : RVec T) (xs : List T) : RVec T := xs.foldl RVec.push v

/-- Fuel-indexed version of the array fill loop: returns `none` when the fuel
runs out before the loop finishes.  Used to state that the loop terminates
within `SIZE` iterations. -/
def fixedGoFuel {ε T : Type} (g : Nat → Except ε T) :
    Nat → List Nat → List T → List Nat → Option (FixedOutcome ε T)
  | _, [], written, calls => some ⟨Except.ok written, calls, [], []⟩
  | 0, _ :: _, _, _ => none
  | fuel + 1, i :: rest, written, calls =>
    match g i with
    | Except.ok v => fixedGoFuel g fuel rest (written ++ [v]) (calls ++ [i])
    | Except.error e => some ⟨Except.error e, calls ++ [i], written, []⟩

/-- Fuel-indexed version of the `Vec` fill loop. -/
def vecGoFuel {ε T : Type} (g : Nat → Except ε T) :
    Nat → List Nat → RVec T → List Nat → Option (VecOutcome ε T)
  | _, [], v, calls => some ⟨Except.ok v, calls, [], [], v.reallocs⟩
  | 0, _ :: _, _, _ => none
  | fuel + 1, i :: rest, v, calls =>
    match g i with
    | Except.ok x => vecGoFuel g fuel rest (v.push x) (calls ++ [i])
    | Except.error e => some ⟨Except.error e, calls ++ [i], [], v.data, v.reallocs⟩

/-! ### Run lemmas -/

/-- Running the array fill loop with a total generator appends `f i` for every
pending index `i`, calls the generator once per index, and neither leaks nor
drops anything. -/
theorem fixedGo_pure {ε T : Type} (f : Nat → T) (l : List Nat) :
    ∀ (written : List T) (calls : List Nat),
      fixedGo (pureGen (ε := ε) f) l written calls =
        ⟨Except.ok (written ++ l.map f), calls ++ l, [], []⟩ := by
  induction l with
  | nil => intro written calls; simp [fixedGo]
  | cons i rest ih =>
      intro written calls
      simp [fixedGo, pureGen, ih]

/-- Running the `Vec` fill loop with a total generator pushes `f i` for every
pending index `i`. -/
theorem vecGo_pure {ε T : Type} (f : Nat → T) (l : List Nat) :
    ∀ (v : RVec T) (calls : List Nat),
      vecGo (pureGen (ε := ε) f) l v calls =
        ⟨Except.ok (v.pushMany (l.map f)), calls ++ l, [], [],
          (v.pushMany (l.map f)).reallocs⟩ := by
  induction l with
  | nil => intro v calls; simp [vecGo, RVec.pushMany]
  | cons i rest ih =>
      intro v calls
      have hm : v.pushMany (f i :: rest.map f) = (v.push (f i)).pushMany (rest.map f) := rfl
      simp [vecGo, pureGen, ih, hm]

/-- As long as the pushed elements fit in the existing capacity, `pushMany`
just appends them: the capacity is unchanged and no reallocation happens. -/
theorem pushMany_within_cap {T : Type} (xs : List T) :
    ∀ (v : RVec T), v.data.length + xs.length ≤ v.cap →
      v.pushMany xs = ⟨v.cap, v.data ++ xs, v.reallocs⟩ := by
  induction xs with
  | nil => intro v _; simp [RVec.pushMany]
  | cons x xs ih =>
      intro v h
      have hlt : v.data.length < v.cap := by
        simp at h; omega
      have hpush : v.push x = ⟨v.cap, v.data ++ [x], v.reallocs⟩ := by
        simp [RVec.push, hlt]
      have hrec := ih (v.push x) (by rw [hpush]; simp at h ⊢; omega)
      have hm : v.pushMany (x :: xs) = (v.push x).pushMany xs := rfl
      rw [hm, hrec, hpush]
      simp

/-- For `k < n`, `range n` decomposes as `range k`, then `k`, then a tail. -/
theorem range_decomp (n : Nat) : ∀ (k : Nat), k < n →
    ∃ l2, List.range n = List.range k ++ k :: l2 := by
  induction n with
  | zero => intro k h; exact absurd h (Nat.not_lt_zero k)
  | succ n ih =>
      intro k h
      have hsplit : k < n ∨ k = n := by omega
      rcases hsplit with h1 | rfl
      · obtain ⟨l2, hl⟩ := ih k h1
        exact ⟨l2 ++ [n], by rw [List.range_succ, hl]; simp⟩
      · exact ⟨[], by rw [List.range_succ]⟩

/-- If the generator succeeds on each index of `l1` and panics on `k`, the
array fill loop stops at `k`: the error propagates, the generator was called
once per index up to and including `k`, the elements built for `l1` are
leaked (the `MaybeUninit` is discarded without running their destructors),
and nothing is dropped. -/
theorem fixedGo_fail {ε T : Type} (g : Nat → Except ε T) (f : Nat → T) (k : Nat) (e : ε)
    (herr : g k = Except.error e) (l1 : List Nat) :
    ∀ (l2 : List Nat) (written : List T) (calls : List Nat),
      (∀ i ∈ l1, g i = Except.ok (f i)) →
      fixedGo g (l1 ++ k :: l2) written calls =
        ⟨Except.error e, calls ++ l1 ++ [k], written ++ l1.map f, []⟩ := by
  induction l1 with
  | nil => intro l2 written calls _; simp [fixedGo, herr]
  | cons i rest ih =>
      intro l2 written calls h1
      have hi : g i = Except.ok (f i) := h1 i (by simp)
      have hrest : ∀ j ∈ rest, g j = Except.ok (f j) := fun j hj => h1 j (by simp [hj])
      simp [fixedGo, hi, ih l2 (written ++ [f i]) (calls ++ [i]) hrest]

/-- `Vec` counterpart of `fixedGo_fail`: on a panic at `k` the error
propagates and the elements already pushed are dropped with the vector. -/
theorem vecGo_fail {ε T : Type} (g : Nat → Except ε T) (f : Nat → T) (k : Nat) (e : ε)
    (herr : g k = Except.error e) (l1 : List Nat) :
    ∀ (l2 : List Nat) (v : RVec T) (calls : List Nat),
      (∀ i ∈ l1, g i = Except.ok (f i)) →
      vecGo g (l1 ++ k :: l2) v calls =
        ⟨Except.error e, calls ++ l1 ++ [k], [],
          (v.pushMany (l1.map f)).data, (v.pushMany (l1.map f)).reallocs⟩ := by
  induction l1 with
  | nil => intro l2 v calls _; simp [vecGo, herr, RVec.pushMany]
  | cons i rest ih =>
      intro l2 v calls h1
      have hi : g i = Except.ok (f i) := h1 i (by simp)
      have hrest : ∀ j ∈ rest, g j = Except.ok (f j) := fun j hj => h1 j (by simp [hj])
      have hm : ∀ w : RVec T, w.pushMany (f i :: rest.map f) = (w.push (f i)).pushMany (rest.map f) :=
        fun w => rfl
      simp [vecGo, hi, ih l2 (v.push (f i)) (calls ++ [i]) hrest, hm]

/-- When the pending indices fit in the spare capacity, the `Vec` fill loop
performs no reallocation, whatever the generator does. -/
theorem vecGo_reallocs {ε T : Type} (g : Nat → Except ε T) (l : List Nat) :
    ∀ (v : RVec T) (calls : List Nat),
      v.data.length + l.length ≤ v.cap →
      (vecGo g l v calls).reallocs = v.reallocs := by
  induction l with
  | nil => intro v calls _; simp [vecGo]
  | cons i rest ih =>
      intro v calls h
      have hlt : v.data.length < v.cap := by simp at h; omega
      cases hg : g i with
      | ok x =>
          have hpush : v.push x = ⟨v.cap, v.data ++ [x], v.reallocs⟩ := by
            simp [RVec.push, hlt]
          have hrec := ih (v.push x) (calls ++ [i]) (by rw [hpush]; simp at h ⊢; omega)
          rw [hpush] at hrec
          simp [vecGo, hg, hrec, hpush]
      | error e => simp [vecGo, hg]

/-- `l.length` units of fuel suffice for the array fill loop to finish. -/
theorem fixedGoFuel_complete {ε T : Type} (g : Nat → Except ε T) (l : List Nat) :
    ∀ (fuel : Nat) (written : List T) (calls : List Nat),
      l.length ≤ fuel →
      fixedGoFuel g fuel l written calls = some (fixedGo g l written calls) := by
  induction l with
  | nil => intro fuel written calls _; cases fuel <;> simp [fixedGoFuel, fixedGo]
  | cons i rest ih =>
      intro fuel written calls h
      cases fuel with
      | zero => simp at h
      | succ fuel =>
          cases hg : g i with
          | ok v =>
              simp [fixedGoFuel, fixedGo, hg]
              exact ih fuel (written ++ [v]) (calls ++ [i]) (by simp at h; omega)
          | error e => simp [fixedGoFuel, fixedGo, hg]

/-- `l.length` units of fuel suffice for the `Vec` fill loop to finish. -/
theorem vecGoFuel_complete {ε T : Type} (g : Nat → Except ε T) (l : List Nat) :
    ∀ (fuel : Nat) (v : RVec T) (calls : List Nat),
      l.length ≤ fuel →
      vecGoFuel g fuel l v calls = some (vecGo g l v calls) := by
  induction l with
  | nil => intro fuel v calls _; cases fuel <;> simp [vecGoFuel, vecGo]
  | cons i rest ih =>
      intro fuel v calls h
      cases fuel with
      | zero => simp at h
      | succ fuel =>
          cases hg : g i with
          | ok x =>
              simp [vecGoFuel, vecGo, hg]
              exact ih fuel (v.push x) (calls ++ [i]) (by simp at h; omega)
          | error e => simp [vecGoFuel, vecGo, hg]

/-! ### Concrete generators used in closed instances -/

deriving instance DecidableEq for Except

/-- Generator over `Nat` that panics at index 2, after building `0` and `10`. -/
def gFail2 : Nat → Except Unit Nat :=
  fun i => if i < 2 then Except.ok (i * 10) else Except.error ()

/-- Generator over `Nat` that panics at index 3, after building `0`, `1`, `2`. -/
def gFail3 : Nat → Except Unit Nat :=
  fun i => if i < 3 then Except.ok i else Except.error ()

/-! ### Claims -/

/-- C1: for every element type `T`, compile-time size `SIZE` and total
generator `f`, the array returned by `init_with` has exactly `SIZE` elements
and its element at each index `i < SIZE` equals `f i`. -/
theorem init_with_content {T : Type} (SIZE : Nat) (f : Nat → T) (i : Nat) (hi : i < SIZE) :
    (init_with (ε := Unit) SIZE (pureGen f)).result.toOption.map List.length = some SIZE
  ∧ (init_with (ε := Unit) SIZE (pureGen f)).result.toOption.bind (fun a => a[i]?) = some (f i) := by
  unfold init_with
  rw [fixedGo_pure (ε := Unit) f (List.range SIZE) [] []]
  constructor
  · simp [Except.toOption]
  · simp [Except.toOption]
    exact ⟨i, List.getElem?_range hi, rfl⟩

theorem init_with_content_witness :
    (init_with (ε := Unit) 3 (pureGen (fun n => n * 2))).result.toOption.map List.length = some 3
  ∧ (init_with (ε := Unit) 3 (pureGen (fun n => n * 2))).result.toOption.bind
      (fun a => a[1]?) = some 2 :=
  init_with_content 3 (fun n => n * 2) 1 (by decide)

/-- C2: for every element type `T`, size and total generator `f`, the vector
returned by `init_with_size` has length exactly `size` and its element at
each index `i < size` equals `f i`. -/
theorem init_with_size_content {T : Type} (size : Nat) (f : Nat → T) (i : Nat) (hi : i < size) :
    (init_with_size (ε := Unit) size (pureGen f)).result.toOption.map
      (fun v => v.data.length) = some size
  ∧ (init_with_size (ε := Unit) size (pureGen f)).result.toOption.bind
      (fun v => v.data[i]?) = some (f i) := by
  unfold init_with_size
  rw [vecGo_pure (ε := Unit) f (List.range size) (RVec.with_capacity T size) []]
  rw [pushMany_within_cap ((List.range size).map f) (RVec.with_capacity T size)
    (by simp [RVec.with_capacity])]
  constructor
  · simp [Except.toOption, RVec.with_capacity]
  · simp [Except.toOption, RVec.with_capacity]
    exact ⟨i, List.getElem?_range hi, rfl⟩

theorem init_with_size_content_witness :
    (init_with_size (ε := Unit) 100 (pureGen (fun n => n * 10))).result.toOption.map
      (fun v => v.data.length) = some 100
  ∧ (init_with_size (ε := Unit) 100 (pureGen (fun n => n * 10))).result.toOption.bind
      (fun v => v.data[99]?) = some 990 :=
  init_with_size_content 100 (fun n => n * 10) 99 (by decide)

/-- C3: the claim asks that a generator panic at index `k` leak none of the
`k` elements already constructed.  Evaluating the fixed-size constructor at
`SIZE = 3` with a generator that panics at index 2 shows the failure does
propagate, no container is produced and nothing is double-destroyed
(`dropped = []`), but the two already-constructed elements sit in the
discarded `MaybeUninit` and their destructors never run: they are leaked. -/
theorem init_with_panic_leaks :
    (init_with 3 gFail2).result = Except.error ()
  ∧ (init_with 3 gFail2).leaked = [0, 10]
  ∧ (init_with 3 gFail2).leaked ≠ []
  ∧ (init_with 3 gFail2).dropped = [] := by decide

/-- C4: for both constructors and every size and total generator, the
generator is called exactly `size` times and the sequence of its arguments is
exactly `0, 1, ..., size - 1` in ascending order. -/
theorem generator_call_order {ε T : Type} (size : Nat) (f : Nat → T) :
    (init_with (ε := ε) size (pureGen f)).calls = List.range size
  ∧ (init_with_size (ε := ε) size (pureGen f)).calls = List.range size := by
  unfold init_with init_with_size
  rw [fixedGo_pure (ε := ε) f (List.range size) [] [],
    vecGo_pure (ε := ε) f (List.range size) (RVec.with_capacity T size) []]
  simp

/-- C5: if the generator panics at index `k < size`, `init_with_size`
propagates the failure, returns no vector, and the `k` elements already
pushed are dropped together with the vector during teardown; nothing is
leaked. -/
theorem init_with_size_failure_teardown {ε T : Type} (size k : Nat) (g : Nat → Except ε T)
    (f : Nat → T) (e : ε) (hk : k < size)
    (hok : ∀ i, i < k → g i = Except.ok (f i)) (herr : g k = Except.error e) :
    (init_with_size size g).result = Except.error e
  ∧ (init_with_size size g).dropped = (List.range k).map f
  ∧ (init_with_size size g).leaked = [] := by
  obtain ⟨l2, hl⟩ := range_decomp size k hk
  have hmem : ∀ i ∈ List.range k, g i = Except.ok (f i) :=
    fun i hi => hok i (List.mem_range.mp hi)
  unfold init_with_size
  rw [hl, vecGo_fail g f k e herr (List.range k) l2 (RVec.with_capacity T size) [] hmem]
  rw [pushMany_within_cap ((List.range k).map f) (RVec.with_capacity T size)
    (by simp [RVec.with_capacity]; omega)]
  exact ⟨rfl, rfl, rfl⟩

theorem init_with_size_failure_teardown_witness :
    (init_with_size 5 gFail3).result = Except.error ()
  ∧ (init_with_size 5 gFail3).dropped = (List.range 3).map (fun i => i)
  ∧ (init_with_size 5 gFail3).leaked = [] :=
  init_with_size_failure_teardown 5 3 gFail3 (fun i => i) () (by decide) (by decide) (by decide)

/-- C6: `init_with_size 0 f` returns the empty vector and never calls the
generator. -/
theorem init_with_size_zero {ε T : Type} (g : Nat → Except ε T) :
    (init_with_size 0 g).result = Except.ok (RVec.with_capacity T 0)
  ∧ (init_with_size 0 g).calls = []
  ∧ (RVec.with_capacity T 0).data = ([] : List T) :=
  ⟨rfl, rfl, rfl⟩

/-- C7: the generator is the only failure source.  With a total generator
both constructors succeed (the library adds no error of its own); when the
generator first panics at index `k < size`, both constructors return that
very error (propagated unchanged, no partial result) and the generator was
called exactly once per index `0, ..., k` — called at the point of failure,
never retried. -/
theorem error_conduit {ε T : Type} (size k : Nat) (g : Nat → Except ε T)
    (f : Nat → T) (e : ε) (hk : k < size)
    (hok : ∀ i, i < k → g i = Except.ok (f i)) (herr : g k = Except.error e) :
    (init_with size g).result = Except.error e
  ∧ (init_with_size size g).result = Except.error e
  ∧ (init_with size g).calls = List.range (k + 1)
  ∧ (init_with_size size g).calls = List.range (k + 1)
  ∧ (init_with (ε := ε) size (pureGen f)).result.toOption.isSome = true
  ∧ (init_with_size (ε := ε) size (pureGen f)).result.toOption.isSome = true := by
  obtain ⟨l2, hl⟩ := range_decomp size k hk
  have hmem : ∀ i ∈ List.range k, g i = Except.ok (f i) :=
    fun i hi => hok i (List.mem_range.mp hi)
  unfold init_with init_with_size
  rw [hl, fixedGo_fail g f k e herr (List.range k) l2 [] [] hmem,
    vecGo_fail g f k e herr (List.range k) l2 (RVec.with_capacity T size) [] hmem,
    fixedGo_pure (ε := ε) f (List.range k ++ k :: l2) [] [],
    vecGo_pure (ε := ε) f (List.range k ++ k :: l2) (RVec.with_capacity T size) []]
  refine ⟨rfl, rfl, ?_, ?_, rfl, rfl⟩ <;> simp [List.range_succ]

theorem error_conduit_witness :
    (init_with 5 gFail3).result = Except.error ()
  ∧ (init_with_size 5 gFail3).result = Except.error ()
  ∧ (init_with 5 gFail3).calls = List.range (3 + 1)
  ∧ (init_with_size 5 gFail3).calls = List.range (3 + 1)
  ∧ (init_with (ε := Unit) 5 (pureGen (fun i => i))).result.toOption.isSome = true
  ∧ (init_with_size (ε := Unit) 5 (pureGen (fun i => i))).result.toOption.isSome = true :=
  error_conduit 5 3 gFail3 (fun i => i) () (by decide) (by decide) (by decide)

/-- C8: both constructors terminate on every size and generator: the fuel
version of each fill loop, given exactly `size` units of fuel, completes and
returns the outcome of the loop. -/
theorem constructors_terminate {ε T : Type} (SIZE size : Nat) (g gd : Nat → Except ε T) :
    fixedGoFuel g SIZE (List.range SIZE) [] [] = some (init_with SIZE g)
  ∧ vecGoFuel gd size (List.range size) (RVec.with_capacity T size) []
      = some (init_with_size size gd) :=
  ⟨fixedGoFuel_complete g (List.range SIZE) SIZE [] [] (by simp),
   vecGoFuel_complete gd (List.range size) size (RVec.with_capacity T size) [] (by simp)⟩

/-- C9: `init_with_size` pre-reserves capacity `size` on an empty vector
before any element is appended, and the fill loop performs no reallocation,
whatever the generator does. -/
theorem init_with_size_reserves {ε T : Type} (size : Nat) (g : Nat → Except ε T) :
    (RVec.with_capacity T size).cap = size
  ∧ (RVec.with_capacity T size).data = ([] : List T)
  ∧ (init_with_size size g).reallocs = 0 := by
  refine ⟨rfl, rfl, ?_⟩
  unfold init_with_size
  rw [vecGo_reallocs g (List.range size) (RVec.with_capacity T size) []
    (by simp [RVec.with_capacity])]
  rfl

/-- C10: for `SIZE = 0` the fixed-size constructor returns the empty array
and never calls the generator. -/
theorem init_with_zero_size {ε T : Type} (g : Nat → Except ε T) :
    (init_with 0 g).result = Except.ok ([] : List T)
  ∧ (init_with 0 g).calls = [] :=
  ⟨rfl, rfl⟩

end Initialize
